import Mathlib

/-!
Shallow embedding of the Rust crate `data_string` (file `src/lib.rs`).

The crate defines a single type `DataString` holding an optional text
representation (a Rust `String`) together with a replacement table
(`HashMap<u8, Vec<usize>>`) mapping each original high byte value to the
ordered list of positions where it occurred in the original byte vector.

Modelling choices:
  - bytes are `Nat` (the Rust values are `u8`, so all reachable values are
    below 256; theorems are stated for all `Nat` where the extra generality
    is harmless);
  - a Rust `String` is modelled by the list of its UTF-8 bytes
    (`List Nat`); Rust guarantees a `String` is valid UTF-8, which is
    recovered here through the executable validator `utf8Decode`;
  - the `HashMap` is modelled as an association list with distinct keys,
    which is exactly the structure `entry(..).or_default().push(..)`
    maintains; replay writes target pairwise disjoint index sets, so the
    arbitrary iteration order of the hash map is immaterial;
  - `&mut self` methods become functions `DataString → result × DataString`;
  - a Rust panic (out-of-bounds index, `Result::unwrap` on `Err`) is
    modelled by the `none` value of an outer `Option`.
-/

namespace DataStr

/-- The sentinel byte, ASCII SUBSTITUTE (`const SUBSTITUTE: u8 = 26`). -/
def SUBSTITUTE : Nat := 26

/-- Highest 7-bit byte (`const ASCII_MAX: u8 = 127`). -/
def ASCII_MAX : Nat := 127

/-- The state of a `DataString` value: `string_rep: Option<String>` and
`replacements: HashMap<u8, Vec<usize>>`. -/
structure DataString where
  string_rep : Option (List Nat)
  replacements : List (Nat × List Nat)
deriving DecidableEq

/-- One step of `replacements.entry(*value).or_default().push(index)`:
append `i` to the list stored under key `k`, creating the entry (at the
end, with a singleton list) if the key is absent. -/
def pushIndex : List (Nat × List Nat) → Nat → Nat → List (Nat × List Nat)
  | [], k, i => [(k, [i])]
  | (k0, l) :: rest, k, i =>
    if k0 = k then (k0, l ++ [i]) :: rest
    else (k0, l) :: pushIndex rest k i

/-- The masking scan of `DataString::from_vec`: walk the data left to
right carrying the running index `i` and the table built so far; every
byte above `ASCII_MAX` is recorded in the table and overwritten with
`SUBSTITUTE`. Returns the masked data and the final table. -/
def maskScan : List Nat → Nat → List (Nat × List Nat) → List Nat × List (Nat × List Nat)
  | [], _, m => ([], m)
  | b :: rest, i, m =>
    if ASCII_MAX < b then
      let r := maskScan rest (i + 1) (pushIndex m b i)
      (SUBSTITUTE :: r.1, r.2)
    else
      let r := maskScan rest (i + 1) m
      (b :: r.1, r.2)

/-- Rust `DataString::from_vec`: mask the data and store the result as the
string representation (`String::from_utf8_unchecked` cannot fail; the
masked data is pure ASCII, as the `debug_assert!` loop checks). -/
def from_vec (data : List Nat) : DataString :=
  let r := maskScan data 0 []
  { string_rep := some r.1, replacements := r.2 }

/-- Rust `DataString::take_string`: `self.string_rep.take()`. -/
def take_string (ds : DataString) : Option (List Nat) × DataString :=
  (ds.string_rep, { ds with string_rep := none })

/-- Rust `DataString::return_string`: store `s` and answer `None` when empty,
hand `s` back unchanged when a string is already held. -/
def return_string (ds : DataString) (s : List Nat) : Option (List Nat) × DataString :=
  match ds.string_rep with
  | none => (none, { ds with string_rep := some s })
  | some _ => (some s, ds)

/-- The inner loop `for index in index_vec { data[*index] = v }`: write
the value `v` at each listed index, failing (Rust index panic) as soon as
an index is out of bounds. -/
def writeIdxs (v : Nat) : List Nat → List Nat → Option (List Nat)
  | [], data => some data
  | i :: rest, data =>
    if i < data.length then writeIdxs v rest (data.set i v) else none

/-- The outer loop over `self.replacements`: for each entry `(k, l)` write
the value `g k` at every index of `l`. `take_data` replays with
`g = fun k => k` (the saved byte) and `return_data_unchecked` re-masks
with `g = fun k => SUBSTITUTE`. -/
def writeTable (g : Nat → Nat) : List (Nat × List Nat) → List Nat → Option (List Nat)
  | [], data => some data
  | (k, l) :: rest, data =>
    match writeIdxs (g k) l data with
    | none => none
    | some d => writeTable g rest d

/-- UTF-8 decoding of a byte list into its scalar values, following the
table that the Rust function `String::from_utf8` validates against (RFC 3629: no
overlongs, no surrogates, maximum U+10FFFF). The first argument is fuel
for structural recursion; any fuel at least the list length gives the
real answer. Returns `none` exactly when the bytes are not valid UTF-8. -/
def utf8DecodeAux : Nat → List Nat → Option (List Nat)
  | _, [] => some []
  | 0, _ :: _ => none
  | fuel + 1, b :: rest =>
    if b ≤ 0x7F then
      Option.map (fun t => b :: t) (utf8DecodeAux fuel rest)
    else if 0xC2 ≤ b ∧ b ≤ 0xDF then
      if 1 ≤ rest.length ∧ 0x80 ≤ rest.getD 0 0 ∧ rest.getD 0 0 ≤ 0xBF then
        Option.map (fun t => ((b - 0xC0) * 0x40 + (rest.getD 0 0 - 0x80)) :: t)
          (utf8DecodeAux fuel (rest.drop 1))
      else none
    else if 0xE0 ≤ b ∧ b ≤ 0xEF then
      if 2 ≤ rest.length
          ∧ (if b = 0xE0 then 0xA0 else 0x80) ≤ rest.getD 0 0
          ∧ rest.getD 0 0 ≤ (if b = 0xED then 0x9F else 0xBF)
          ∧ 0x80 ≤ rest.getD 1 0 ∧ rest.getD 1 0 ≤ 0xBF then
        Option.map
          (fun t =>
            ((b - 0xE0) * 0x1000 + (rest.getD 0 0 - 0x80) * 0x40 + (rest.getD 1 0 - 0x80)) :: t)
          (utf8DecodeAux fuel (rest.drop 2))
      else none
    else if 0xF0 ≤ b ∧ b ≤ 0xF4 then
      if 3 ≤ rest.length
          ∧ (if b = 0xF0 then 0x90 else 0x80) ≤ rest.getD 0 0
          ∧ rest.getD 0 0 ≤ (if b = 0xF4 then 0x8F else 0xBF)
          ∧ 0x80 ≤ rest.getD 1 0 ∧ rest.getD 1 0 ≤ 0xBF
          ∧ 0x80 ≤ rest.getD 2 0 ∧ rest.getD 2 0 ≤ 0xBF then
        Option.map
          (fun t =>
            ((b - 0xF0) * 0x40000 + (rest.getD 0 0 - 0x80) * 0x1000
              + (rest.getD 1 0 - 0x80) * 0x40 + (rest.getD 2 0 - 0x80)) :: t)
          (utf8DecodeAux fuel (rest.drop 3))
      else none
    else none

/-- UTF-8 decoding of a byte list (chars of a Rust `String` holding these
bytes); `none` exactly when `String::from_utf8` would fail. -/
def utf8Decode (s : List Nat) : Option (List Nat) :=
  utf8DecodeAux s.length s

/-- Whether a byte list is valid UTF-8, i.e. whether `String::from_utf8`
succeeds on it. -/
def utf8Valid (s : List Nat) : Bool :=
  (utf8Decode s).isSome

/-- Rust `DataString::take_data`: `None` when empty; otherwise move the string
out, take its bytes and replay the saved bytes over the recorded
positions. The outer `Option` is `none` on an index panic. -/
def take_data (ds : DataString) : Option (Option (List Nat) × DataString) :=
  match ds.string_rep with
  | none => some (none, ds)
  | some s =>
    match writeTable (fun k => k) ds.replacements s with
    | none => none
    | some d => some (some d, { ds with string_rep := none })

/-- Rust `DataString::return_data_unchecked`: hand the buffer back when a
string is already held; otherwise overwrite every recorded position with
`SUBSTITUTE` and store the result via `String::from_utf8(data).unwrap()`.
The outer `Option` is `none` on an index panic or on the `unwrap` panic
when the re-masked buffer is not valid UTF-8. -/
def return_data_unchecked (ds : DataString) (data : List Nat) :
    Option (Option (List Nat) × DataString) :=
  match ds.string_rep with
  | some _ => some (some data, ds)
  | none =>
    match writeTable (fun _ => SUBSTITUTE) ds.replacements data with
    | none => none
    | some d =>
      if utf8Valid d then some (none, { ds with string_rep := some d })
      else none

/-- The `Display` implementation: nothing for an empty value; otherwise
every char of the held string, with the `SUBSTITUTE` char replaced by
U+FFFD. The chars of a Rust `String` are obtained by UTF-8 decoding its
bytes (always valid for a genuine `String`; the `none` fallback is
unreachable there). -/
def displayRender (ds : DataString) : List Nat :=
  match ds.string_rep with
  | none => []
  | some s =>
    match utf8Decode s with
    | none => []
    | some cs => cs.map (fun c => if c = SUBSTITUTE then 0xFFFD else c)

/-- A position `p` is recorded under key `k` somewhere in the table. -/
def Recorded (m : List (Nat × List Nat)) (p k : Nat) : Prop :=
  ∃ l, (k, l) ∈ m ∧ p ∈ l

/-- A position `p` is recorded somewhere in the table (boolean form). -/
def inTable (m : List (Nat × List Nat)) (p : Nat) : Bool :=
  m.any (fun e => e.2.contains p)

/-- A position `p` is recorded somewhere in the table (propositional
form, decidable). -/
def InTab (m : List (Nat × List Nat)) (p : Nat) : Prop :=
  ∃ e ∈ m, p ∈ e.2

instance (m : List (Nat × List Nat)) (p : Nat) : Decidable (InTab m p) :=
  List.decidableBEx _ m

/-- All recorded positions lie below `n`. -/
def TableBelow (m : List (Nat × List Nat)) (n : Nat) : Prop :=
  ∀ k l, (k, l) ∈ m → ∀ i ∈ l, i < n

instance (m : List (Nat × List Nat)) (n : Nat) : Decidable (TableBelow m n) :=
  decidable_of_iff (∀ e ∈ m, ∀ i ∈ e.2, i < n)
    ⟨fun h k l hm i hi => h (k, l) hm i hi,
     fun h e he i hi => by
       obtain ⟨k, l⟩ := e
       exact h k l he i hi⟩

/-- Every index list of the table is in strictly ascending order. -/
def TableSorted (m : List (Nat × List Nat)) : Prop :=
  ∀ k l, (k, l) ∈ m → l.Pairwise (fun a b => a < b)

/-- The sentinel-position invariant of the spec: whenever a text form is
held, every recorded position is a valid index of it holding the
sentinel byte. -/
def SentinelInv (ds : DataString) : Prop :=
  ∀ t, ds.string_rep = some t → ∀ k l, (k, l) ∈ ds.replacements →
    ∀ i ∈ l, i < t.length ∧ t.getD i 0 = SUBSTITUTE

/-! Basic list helpers. -/

lemma getD_set : ∀ (l : List Nat) (i v p : Nat),
    (l.set i v).getD p 0 = if p = i ∧ i < l.length then v else l.getD p 0
  | [], i, v, p => by simp
  | a :: t, 0, v, 0 => by simp
  | a :: t, 0, v, p + 1 => by
    have : ((v :: t).getD (p + 1) 0) = t.getD p 0 := rfl
    rw [List.set_cons_zero, this]
    simp
  | a :: t, i + 1, v, 0 => by
    rw [List.set_cons_succ]
    simp
  | a :: t, i + 1, v, p + 1 => by
    rw [List.set_cons_succ]
    have lhs : ((a :: t.set i v).getD (p + 1) 0) = (t.set i v).getD p 0 := rfl
    have rhs : ((a :: t).getD (p + 1) 0) = t.getD p 0 := rfl
    rw [lhs, rhs, getD_set t i v p]
    by_cases h : p = i ∧ i < t.length
    · rw [if_pos h, if_pos (by simp only [List.length_cons]; omega)]
    · rw [if_neg h, if_neg (by simp only [List.length_cons]; omega)]

lemma getD_oob : ∀ (l : List Nat) (p : Nat), l.length ≤ p → l.getD p 0 = 0
  | [], p, _ => rfl
  | a :: t, 0, h => by simp at h
  | a :: t, p + 1, h => getD_oob t p (by simpa using h)

lemma list_ext_getD : ∀ (a b : List Nat), a.length = b.length →
    (∀ p, a.getD p 0 = b.getD p 0) → a = b
  | [], [], _, _ => rfl
  | [], y :: ys, h, _ => by simp at h
  | x :: xs, [], h, _ => by simp at h
  | x :: xs, y :: ys, h, hp => by
    have h0 := hp 0
    simp only [List.getD_cons_zero] at h0
    have ht : xs = ys := by
      apply list_ext_getD
      · simpa using h
      · intro p
        have := hp (p + 1)
        simpa [List.getD] using this
    rw [h0, ht]

/-! Lemmas about the index-write loops. -/

lemma writeIdxs_some_spec (v : Nat) :
    ∀ (l : List Nat) (data : List Nat), (∀ i ∈ l, i < data.length) →
    ∃ d, writeIdxs v l data = some d ∧ d.length = data.length ∧
      ∀ p, d.getD p 0 = if p ∈ l then v else data.getD p 0
  | [], data, _ => ⟨data, rfl, rfl, by simp⟩
  | i :: rest, data, h => by
    have hi : i < data.length := h i (by simp)
    obtain ⟨d, hd, hlen, hpt⟩ :=
      writeIdxs_some_spec v rest (data.set i v)
        (fun j hj => by rw [List.length_set]; exact h j (by simp [hj]))
    refine ⟨d, ?_, by simpa using hlen, ?_⟩
    · simpa [writeIdxs, hi] using hd
    · intro p
      rw [hpt p, getD_set]
      by_cases hpr : p ∈ rest
      · simp [hpr]
      · by_cases hpi : p = i
        · subst hpi
          simp [hpr, hi]
        · simp [hpr, hpi]

lemma writeIdxs_length (v : Nat) :
    ∀ (l : List Nat) (data d : List Nat), writeIdxs v l data = some d →
      d.length = data.length
  | [], data, d, h => by simpa [writeIdxs] using congrArg (Option.map List.length) h.symm
  | i :: rest, data, d, h => by
    by_cases hi : i < data.length
    · have := writeIdxs_length v rest (data.set i v) d (by simpa [writeIdxs, hi] using h)
      simpa using this
    · simp [writeIdxs, hi] at h

lemma writeIdxs_none_of_oob (v : Nat) :
    ∀ (l : List Nat) (data : List Nat), (∃ i ∈ l, data.length ≤ i) →
      writeIdxs v l data = none
  | [], data, h => by simp at h
  | i :: rest, data, h => by
    by_cases hi : i < data.length
    · obtain ⟨j, hj, hoob⟩ := h
      rcases List.mem_cons.mp hj with rfl | hj
      · omega
      · have := writeIdxs_none_of_oob v rest (data.set i v) ⟨j, hj, by simpa using hoob⟩
        simpa [writeIdxs, hi] using this
    · simp [writeIdxs, hi]

lemma writeIdxs_some_bounds (v : Nat) :
    ∀ (l : List Nat) (data d : List Nat), writeIdxs v l data = some d →
      ∀ i ∈ l, i < data.length
  | [], _, _, _, i, hi => by simp at hi
  | j :: rest, data, d, h, i, hi => by
    by_cases hj : j < data.length
    · rcases List.mem_cons.mp hi with rfl | hi
      · exact hj
      · have := writeIdxs_some_bounds v rest (data.set j v) d
          (by simpa [writeIdxs, hj] using h) i hi
        simpa using this
    · simp [writeIdxs, hj] at h

/-! Lemmas about the table-write loop. -/

lemma InTab_iff_recorded (m : List (Nat × List Nat)) (p : Nat) :
    InTab m p ↔ ∃ k, Recorded m p k := by
  constructor
  · rintro ⟨⟨k, l⟩, he, hp⟩
    exact ⟨k, l, he, hp⟩
  · rintro ⟨k, l, he, hp⟩
    exact ⟨(k, l), he, hp⟩

lemma inTable_eq_inTab (m : List (Nat × List Nat)) (p : Nat) :
    inTable m p = true ↔ InTab m p := by
  simp [inTable, InTab]

lemma writeTable_some_spec (g f : Nat → Nat) :
    ∀ (m : List (Nat × List Nat)) (data : List Nat),
    (∀ k l, (k, l) ∈ m → ∀ i ∈ l, i < data.length ∧ g k = f i) →
    ∃ d, writeTable g m data = some d ∧ d.length = data.length ∧
      ∀ p, d.getD p 0 = if InTab m p then f p else data.getD p 0
  | [], data, _ => ⟨data, rfl, rfl, by simp [InTab]⟩
  | (k, l) :: rest, data, h => by
    obtain ⟨d1, hd1, hlen1, hpt1⟩ := writeIdxs_some_spec (g k) l data
      (fun i hi => (h k l (by simp) i hi).1)
    obtain ⟨d, hd, hlen, hpt⟩ := writeTable_some_spec g f rest d1
      (fun k2 l2 hm i hi => by
        have h2 := h k2 l2 (by simp [hm]) i hi
        exact ⟨by rw [hlen1]; exact h2.1, h2.2⟩)
    refine ⟨d, by simp [writeTable, hd1, hd], by rw [hlen, hlen1], ?_⟩
    intro p
    rw [hpt p, hpt1 p]
    by_cases h1 : InTab rest p
    · have hin : InTab ((k, l) :: rest) p := by
        obtain ⟨e, he, hp⟩ := h1
        exact ⟨e, by simp [he], hp⟩
      rw [if_pos h1, if_pos hin]
    · by_cases h2 : p ∈ l
      · have hin : InTab ((k, l) :: rest) p := ⟨(k, l), by simp, h2⟩
        rw [if_neg h1, if_pos h2, if_pos hin]
        exact (h k l (by simp) p h2).2
      · have hnin : ¬ InTab ((k, l) :: rest) p := by
          rintro ⟨e, he, hp⟩
          rcases List.mem_cons.mp he with rfl | he
          · exact h2 hp
          · exact h1 ⟨e, he, hp⟩
        rw [if_neg h1, if_neg h2, if_neg hnin]

lemma writeTable_some_of_bounds (g : Nat → Nat) :
    ∀ (m : List (Nat × List Nat)) (data : List Nat), TableBelow m data.length →
    ∃ d, writeTable g m data = some d ∧ d.length = data.length
  | [], data, _ => ⟨data, rfl, rfl⟩
  | (k, l) :: rest, data, h => by
    obtain ⟨d1, hd1, hlen1, _⟩ := writeIdxs_some_spec (g k) l data
      (fun i hi => h k l (by simp) i hi)
    obtain ⟨d, hd, hlen⟩ := writeTable_some_of_bounds g rest d1
      (fun k2 l2 hm i hi => by rw [hlen1]; exact h k2 l2 (by simp [hm]) i hi)
    exact ⟨d, by simp [writeTable, hd1, hd], by rw [hlen, hlen1]⟩

lemma writeTable_none_of_oob (g : Nat → Nat) :
    ∀ (m : List (Nat × List Nat)) (data : List Nat),
    (∃ k l, (k, l) ∈ m ∧ ∃ i ∈ l, data.length ≤ i) →
    writeTable g m data = none
  | [], data, h => by
    obtain ⟨k, l, hm, _⟩ := h
    simp at hm
  | (k, l) :: rest, data, h => by
    obtain ⟨k2, l2, hm, i, hi, hoob⟩ := h
    rcases List.mem_cons.mp hm with heq | hm
    · obtain ⟨rfl, rfl⟩ := Prod.ext_iff.mp heq
      rw [writeTable, writeIdxs_none_of_oob (g k2) l2 data ⟨i, hi, hoob⟩]
    · cases hw : writeIdxs (g k) l data with
      | none => rw [writeTable, hw]
      | some d1 =>
        have hlen1 := writeIdxs_length (g k) l data d1 hw
        have := writeTable_none_of_oob g rest d1 ⟨k2, l2, hm, i, hi, by rw [hlen1]; exact hoob⟩
        rw [writeTable, hw]
        exact this

lemma writeTable_some_bounds (g : Nat → Nat) :
    ∀ (m : List (Nat × List Nat)) (data d : List Nat), writeTable g m data = some d →
    TableBelow m data.length
  | [], _, _, _, k, l, hm => by simp at hm
  | (k1, l1) :: rest, data, d, h, k, l, hm => by
    intro i hi
    cases hw : writeIdxs (g k1) l1 data with
    | none => rw [writeTable, hw] at h; exact absurd h (by simp)
    | some d1 =>
      rcases List.mem_cons.mp hm with heq | hm2
      · obtain ⟨rfl, rfl⟩ := Prod.ext_iff.mp heq
        exact writeIdxs_some_bounds (g k) l data d1 hw i hi
      · rw [writeTable, hw] at h
        have hlen1 := writeIdxs_length (g k1) l1 data d1 hw
        have := writeTable_some_bounds g rest d1 d h k l hm2 i hi
        omega

/-! Characterization of the construction scan. -/

lemma maskScan_fst : ∀ (d : List Nat) (i : Nat) (m : List (Nat × List Nat)),
    (maskScan d i m).1 = d.map (fun b => if ASCII_MAX < b then SUBSTITUTE else b)
  | [], _, _ => rfl
  | b :: rest, i, m => by
    by_cases hb : ASCII_MAX < b
    · simp [maskScan, hb, maskScan_fst rest]
    · simp [maskScan, hb, maskScan_fst rest]

lemma recorded_pushIndex : ∀ (m : List (Nat × List Nat)) (k0 i p k : Nat),
    Recorded (pushIndex m k0 i) p k ↔ Recorded m p k ∨ (p = i ∧ k = k0)
  | [], k0, i, p, k => by
    constructor
    · rintro ⟨l, hl, hp⟩
      simp only [pushIndex, List.mem_singleton, Prod.mk.injEq] at hl
      obtain ⟨rfl, rfl⟩ := hl
      simp only [List.mem_singleton] at hp
      exact Or.inr ⟨hp, rfl⟩
    · rintro (⟨l, hl, _⟩ | ⟨rfl, rfl⟩)
      · simp at hl
      · exact ⟨[p], by simp [pushIndex], by simp⟩
  | (k1, l1) :: rest, k0, i, p, k => by
    by_cases h : k1 = k0
    · subst h
      simp only [pushIndex, if_pos rfl]
      constructor
      · rintro ⟨l, hl, hp⟩
        rcases List.mem_cons.mp hl with heq | hm
        · injection heq with hk2 hl2
          subst hk2
          subst hl2
          rcases List.mem_append.mp hp with hp | hp
          · exact Or.inl ⟨l1, by simp, hp⟩
          · simp only [List.mem_singleton] at hp
            exact Or.inr ⟨hp, rfl⟩
        · exact Or.inl ⟨l, by simp [hm], hp⟩
      · rintro (⟨l, hl, hp⟩ | ⟨rfl, rfl⟩)
        · rcases List.mem_cons.mp hl with heq | hm
          · injection heq with hk2 hl2
            subst hk2
            subst hl2
            exact ⟨l ++ [i], by simp, by simp [hp]⟩
          · exact ⟨l, by simp [hm], hp⟩
        · exact ⟨l1 ++ [p], by simp, by simp⟩
    · simp only [pushIndex, if_neg h]
      have ih := recorded_pushIndex rest k0 i p k
      constructor
      · rintro ⟨l, hl, hp⟩
        rcases List.mem_cons.mp hl with heq | hm
        · exact Or.inl ⟨l, by simp [heq], hp⟩
        · rcases ih.mp ⟨l, hm, hp⟩ with hR | hik
          · obtain ⟨l2, hl2, hp2⟩ := hR
            exact Or.inl ⟨l2, by simp [hl2], hp2⟩
          · exact Or.inr hik
      · rintro (⟨l, hl, hp⟩ | hik)
        · rcases List.mem_cons.mp hl with heq | hm
          · exact ⟨l, by simp [heq], hp⟩
          · obtain ⟨l2, hl2, hp2⟩ := ih.mpr (Or.inl ⟨l, hm, hp⟩)
            exact ⟨l2, by simp [hl2], hp2⟩
        · obtain ⟨l2, hl2, hp2⟩ := ih.mpr (Or.inr hik)
          exact ⟨l2, by simp [hl2], hp2⟩

lemma recorded_maskScan : ∀ (d : List Nat) (i : Nat) (m : List (Nat × List Nat)) (p k : Nat),
    Recorded (maskScan d i m).2 p k ↔
      Recorded m p k ∨ ∃ j, j < d.length ∧ p = i + j ∧ d.getD j 0 = k ∧ ASCII_MAX < k
  | [], i, m, p, k => by simp [maskScan]
  | b :: rest, i, m, p, k => by
    by_cases hb : ASCII_MAX < b
    · have ih := recorded_maskScan rest (i + 1) (pushIndex m b i) p k
      have hstep : (maskScan (b :: rest) i m).2 = (maskScan rest (i + 1) (pushIndex m b i)).2 := by
        simp [maskScan, hb]
      rw [hstep, ih, recorded_pushIndex]
      constructor
      · rintro ((hR | ⟨rfl, rfl⟩) | ⟨j, hj, rfl, hget, hk⟩)
        · exact Or.inl hR
        · exact Or.inr ⟨0, by simp, by omega, rfl, hb⟩
        · refine Or.inr ⟨j + 1, by simp only [List.length_cons]; omega, by omega, ?_, hk⟩
          exact hget
      · rintro (hR | ⟨j, hj, rfl, hget, hk⟩)
        · exact Or.inl (Or.inl hR)
        · cases j with
          | zero =>
            refine Or.inl (Or.inr ⟨by omega, ?_⟩)
            have : b = k := hget
            omega
          | succ j =>
            refine Or.inr ⟨j, by simp only [List.length_cons] at hj; omega, by omega, ?_, hk⟩
            exact hget
    · have ih := recorded_maskScan rest (i + 1) m p k
      have hstep : (maskScan (b :: rest) i m).2 = (maskScan rest (i + 1) m).2 := by
        simp [maskScan, hb]
      rw [hstep, ih]
      constructor
      · rintro (hR | ⟨j, hj, rfl, hget, hk⟩)
        · exact Or.inl hR
        · refine Or.inr ⟨j + 1, by simp only [List.length_cons]; omega, by omega, ?_, hk⟩
          exact hget
      · rintro (hR | ⟨j, hj, rfl, hget, hk⟩)
        · exact Or.inl hR
        · cases j with
          | zero =>
            have : b = k := hget
            omega
          | succ j =>
            refine Or.inr ⟨j, by simp only [List.length_cons] at hj; omega, by omega, ?_, hk⟩
            exact hget

lemma from_vec_string (d : List Nat) :
    (from_vec d).string_rep = some (d.map (fun b => if ASCII_MAX < b then SUBSTITUTE else b)) := by
  rw [show (from_vec d).string_rep = some (maskScan d 0 []).1 from rfl, maskScan_fst]

lemma recorded_from_vec (d : List Nat) (p k : Nat) :
    Recorded (from_vec d).replacements p k ↔
      p < d.length ∧ d.getD p 0 = k ∧ ASCII_MAX < k := by
  rw [show (from_vec d).replacements = (maskScan d 0 []).2 from rfl, recorded_maskScan]
  constructor
  · rintro (⟨l, hl, _⟩ | ⟨j, hj, rfl, hget, hk⟩)
    · simp at hl
    · exact ⟨by omega, by simpa using hget, hk⟩
  · rintro ⟨hp, hget, hk⟩
    exact Or.inr ⟨p, hp, by omega, hget, hk⟩

lemma inTab_from_vec (d : List Nat) (p : Nat) :
    InTab (from_vec d).replacements p ↔ p < d.length ∧ ASCII_MAX < d.getD p 0 := by
  rw [InTab_iff_recorded]
  constructor
  · rintro ⟨k, hk⟩
    obtain ⟨h1, h2, h3⟩ := (recorded_from_vec d p k).mp hk
    exact ⟨h1, by omega⟩
  · rintro ⟨hp, hv⟩
    exact ⟨d.getD p 0, (recorded_from_vec d p _).mpr ⟨hp, rfl, hv⟩⟩

lemma tableBelow_from_vec (d : List Nat) :
    TableBelow (from_vec d).replacements d.length := by
  intro k l hm i hi
  exact ((recorded_from_vec d i k).mp ⟨l, hm, hi⟩).1

/-! Distinct keys and ascending index lists. -/

lemma keys_pushIndex : ∀ (m : List (Nat × List Nat)) (k i : Nat),
    (pushIndex m k i).map Prod.fst =
      if k ∈ m.map Prod.fst then m.map Prod.fst else m.map Prod.fst ++ [k]
  | [], k, i => by simp [pushIndex]
  | (k1, l1) :: rest, k, i => by
    by_cases h : k1 = k
    · subst h
      simp [pushIndex]
    · simp only [pushIndex, if_neg h, List.map_cons, keys_pushIndex rest k i]
      by_cases hk : k ∈ rest.map Prod.fst
      · simp [hk, Ne.symm h]
      · simp [hk, Ne.symm h]

lemma keysNodup_pushIndex (m : List (Nat × List Nat)) (k i : Nat)
    (h : (m.map Prod.fst).Nodup) : ((pushIndex m k i).map Prod.fst).Nodup := by
  rw [keys_pushIndex]
  by_cases hk : k ∈ m.map Prod.fst
  · simpa [hk] using h
  · simp [hk, List.nodup_append, h]

lemma keysNodup_maskScan : ∀ (d : List Nat) (i : Nat) (m : List (Nat × List Nat)),
    (m.map Prod.fst).Nodup → (((maskScan d i m).2).map Prod.fst).Nodup
  | [], _, _, h => h
  | b :: rest, i, m, h => by
    by_cases hb : ASCII_MAX < b
    · have := keysNodup_maskScan rest (i + 1) (pushIndex m b i) (keysNodup_pushIndex m b i h)
      simpa [maskScan, hb] using this
    · have := keysNodup_maskScan rest (i + 1) m h
      simpa [maskScan, hb] using this

lemma keysNodup_from_vec (d : List Nat) :
    ((from_vec d).replacements.map Prod.fst).Nodup :=
  keysNodup_maskScan d 0 [] (by simp)

lemma entry_unique_of_keysNodup : ∀ (m : List (Nat × List Nat)),
    (m.map Prod.fst).Nodup →
    ∀ k l1 l2, (k, l1) ∈ m → (k, l2) ∈ m → l1 = l2
  | [], _, k, l1, l2, h1, _ => by simp at h1
  | (k1, lh) :: rest, h, k, l1, l2, h1, h2 => by
    rw [List.map_cons] at h
    have hnodup := List.nodup_cons.mp h
    rcases List.mem_cons.mp h1 with he1 | hm1 <;> rcases List.mem_cons.mp h2 with he2 | hm2
    · injection he1 with e1k e1l
      injection he2 with e2k e2l
      rw [e1l, e2l]
    · injection he1 with e1k e1l
      subst e1k
      exact absurd (List.mem_map_of_mem Prod.fst hm2) hnodup.1
    · injection he2 with e2k e2l
      subst e2k
      exact absurd (List.mem_map_of_mem Prod.fst hm1) hnodup.1
    · exact entry_unique_of_keysNodup rest hnodup.2 k l1 l2 hm1 hm2

lemma tableBelow_mono {m : List (Nat × List Nat)} {a b : Nat}
    (h : TableBelow m a) (hab : a ≤ b) : TableBelow m b :=
  fun k l hm i hi => lt_of_lt_of_le (h k l hm i hi) hab

lemma pushIndex_sorted_below : ∀ (m : List (Nat × List Nat)) (k n : Nat),
    TableBelow m n → TableSorted m →
    TableSorted (pushIndex m k n) ∧ TableBelow (pushIndex m k n) (n + 1)
  | [], k, n, _, _ => by
    constructor
    · intro k2 l2 hm
      simp only [pushIndex, List.mem_singleton] at hm
      injection hm with e1 e2
      rw [e2]
      simp
    · intro k2 l2 hm i hi
      simp only [pushIndex, List.mem_singleton] at hm
      injection hm with e1 e2
      subst e2
      simp only [List.mem_singleton] at hi
      omega
  | (k1, l1) :: rest, k, n, hbelow, hsorted => by
    by_cases h : k1 = k
    · subst h
      constructor
      · intro k2 l2 hm
        simp only [pushIndex, if_pos rfl] at hm
        rcases List.mem_cons.mp hm with he | hm2
        · injection he with e1 e2
          subst e2
          rw [List.pairwise_append]
          refine ⟨hsorted k1 l1 (by simp), by simp, ?_⟩
          intro a ha b hb
          simp only [List.mem_singleton] at hb
          subst hb
          exact hbelow k1 l1 (by simp) a ha
        · exact hsorted k2 l2 (by simp [hm2])
      · intro k2 l2 hm i hi
        simp only [pushIndex, if_pos rfl] at hm
        rcases List.mem_cons.mp hm with he | hm2
        · injection he with e1 e2
          subst e2
          rcases List.mem_append.mp hi with hi | hi
          · have := hbelow k1 l1 (by simp) i hi
            omega
          · simp only [List.mem_singleton] at hi
            omega
        · have := hbelow k2 l2 (by simp [hm2]) i hi
          omega
    · obtain ⟨ihs, ihb⟩ := pushIndex_sorted_below rest k n
        (fun k2 l2 hm => hbelow k2 l2 (by simp [hm]))
        (fun k2 l2 hm => hsorted k2 l2 (by simp [hm]))
      constructor
      · intro k2 l2 hm
        simp only [pushIndex, if_neg h] at hm
        rcases List.mem_cons.mp hm with he | hm2
        · injection he with e1 e2
          subst e2
          exact hsorted k1 l2 (by simp)
        · exact ihs k2 l2 hm2
      · intro k2 l2 hm i hi
        simp only [pushIndex, if_neg h] at hm
        rcases List.mem_cons.mp hm with he | hm2
        · injection he with e1 e2
          subst e2
          have := hbelow k1 l2 (by simp) i hi
          omega
        · exact ihb k2 l2 hm2 i hi

lemma maskScan_sorted_below : ∀ (d : List Nat) (i : Nat) (m : List (Nat × List Nat)),
    TableSorted m → TableBelow m i →
    TableSorted (maskScan d i m).2 ∧ TableBelow (maskScan d i m).2 (i + d.length)
  | [], i, m, hs, hb => ⟨hs, by simpa using hb⟩
  | b :: rest, i, m, hs, hb => by
    by_cases hbv : ASCII_MAX < b
    · obtain ⟨ps, pb⟩ := pushIndex_sorted_below m b i hb hs
      obtain ⟨ihs, ihb⟩ := maskScan_sorted_below rest (i + 1) (pushIndex m b i) ps pb
      have hstep : (maskScan (b :: rest) i m).2 = (maskScan rest (i + 1) (pushIndex m b i)).2 := by
        simp [maskScan, hbv]
      rw [hstep]
      exact ⟨ihs, tableBelow_mono ihb (by simp only [List.length_cons]; omega)⟩
    · obtain ⟨ihs, ihb⟩ := maskScan_sorted_below rest (i + 1) m hs (tableBelow_mono hb (by omega))
      have hstep : (maskScan (b :: rest) i m).2 = (maskScan rest (i + 1) m).2 := by
        simp [maskScan, hbv]
      rw [hstep]
      exact ⟨ihs, tableBelow_mono ihb (by simp only [List.length_cons]; omega)⟩

lemma tableSorted_from_vec (d : List Nat) : TableSorted (from_vec d).replacements := by
  have h := maskScan_sorted_below d 0 []
    (fun k l hm => by simp at hm) (fun k l hm => by simp at hm)
  exact h.1

/-! UTF-8 facts. -/

lemma utf8DecodeAux_cons_low (fuel b : Nat) (rest : List Nat) (hb : b ≤ 0x7F) :
    utf8DecodeAux (fuel + 1) (b :: rest) =
      Option.map (fun t => b :: t) (utf8DecodeAux fuel rest) := by
  rw [utf8DecodeAux, if_pos hb]

lemma utf8DecodeAux_ascii : ∀ (fuel : Nat) (s : List Nat), s.length ≤ fuel →
    (∀ b ∈ s, b ≤ ASCII_MAX) → utf8DecodeAux fuel s = some s
  | fuel, [], _, _ => by cases fuel <;> rfl
  | 0, b :: rest, hf, _ => by simp at hf
  | fuel + 1, b :: rest, hf, h => by
    have hb : b ≤ 0x7F := h b (by simp)
    rw [utf8DecodeAux_cons_low fuel b rest hb,
      utf8DecodeAux_ascii fuel rest (by simp only [List.length_cons] at hf; omega)
        (fun x hx => h x (by simp [hx]))]
    rfl

lemma utf8Decode_ascii (s : List Nat) (h : ∀ b ∈ s, b ≤ ASCII_MAX) :
    utf8Decode s = some s :=
  utf8DecodeAux_ascii s.length s le_rfl h

lemma utf8Valid_ascii (s : List Nat) (h : ∀ b ∈ s, b ≤ ASCII_MAX) : utf8Valid s = true := by
  simp [utf8Valid, utf8Decode_ascii s h]

lemma utf8DecodeAux_none_of_lone_high : ∀ (fuel : Nat) (s : List Nat) (p : Nat),
    s.length ≤ fuel → p < s.length → (∀ j, j < p → s.getD j 0 ≤ 0x7F) →
    0x7F < s.getD p 0 → s.getD (p + 1) 0 ≤ 0x7F → utf8DecodeAux fuel s = none
  | _, [], p, _, hp, _, _, _ => by simp at hp
  | 0, b :: rest, p, hf, _, _, _, _ => by simp at hf
  | fuel + 1, b :: rest, 0, hf, hp, hlow, hhigh, hnext => by
    have hb127 : 0x7F < b := by simpa using hhigh
    have hb : ¬ (b ≤ 0x7F) := by omega
    have hr0 : rest.getD 0 0 ≤ 0x7F := hnext
    have h2 : ¬ (1 ≤ rest.length ∧ 0x80 ≤ rest.getD 0 0 ∧ rest.getD 0 0 ≤ 0xBF) := by
      intro hc
      omega
    have h3 : ¬ (2 ≤ rest.length
        ∧ (if b = 0xE0 then 0xA0 else 0x80) ≤ rest.getD 0 0
        ∧ rest.getD 0 0 ≤ (if b = 0xED then 0x9F else 0xBF)
        ∧ 0x80 ≤ rest.getD 1 0 ∧ rest.getD 1 0 ≤ 0xBF) := by
      intro hc
      have hc1 := hc.2.1
      split at hc1 <;> omega
    have h4 : ¬ (3 ≤ rest.length
        ∧ (if b = 0xF0 then 0x90 else 0x80) ≤ rest.getD 0 0
        ∧ rest.getD 0 0 ≤ (if b = 0xF4 then 0x8F else 0xBF)
        ∧ 0x80 ≤ rest.getD 1 0 ∧ rest.getD 1 0 ≤ 0xBF
        ∧ 0x80 ≤ rest.getD 2 0 ∧ rest.getD 2 0 ≤ 0xBF) := by
      intro hc
      have hc1 := hc.2.1
      split at hc1 <;> omega
    rw [utf8DecodeAux, if_neg hb, if_neg h2, if_neg h3, if_neg h4]
    simp only [ite_self]
  | fuel + 1, b :: rest, p + 1, hf, hp, hlow, hhigh, hnext => by
    have hb : b ≤ 0x7F := hlow 0 (by omega)
    have ih := utf8DecodeAux_none_of_lone_high fuel rest p
      (by simp only [List.length_cons] at hf; omega)
      (by simp only [List.length_cons] at hp; omega)
      (fun j hj => hlow (j + 1) (by omega))
      hhigh hnext
    rw [utf8DecodeAux_cons_low fuel b rest hb, ih]
    rfl

lemma utf8Valid_false_of_lone_high (s : List Nat) (p : Nat)
    (hp : p < s.length) (hlow : ∀ j, j < p → s.getD j 0 ≤ 0x7F)
    (hhigh : 0x7F < s.getD p 0) (hnext : s.getD (p + 1) 0 ≤ 0x7F) :
    utf8Valid s = false := by
  simp [utf8Valid, utf8Decode,
    utf8DecodeAux_none_of_lone_high s.length s p le_rfl hp hlow hhigh hnext]

/-! Pointwise helpers for masked texts. -/

lemma getD_map_lt (f : Nat → Nat) : ∀ (l : List Nat) (i : Nat), i < l.length →
    (l.map f).getD i 0 = f (l.getD i 0)
  | [], i, h => by simp at h
  | a :: t, 0, _ => rfl
  | a :: t, i + 1, h => getD_map_lt f t i (by simpa using h)

lemma maskedText_getD (d : List Nat) (p : Nat) :
    (d.map (fun b => if ASCII_MAX < b then SUBSTITUTE else b)).getD p 0 =
      if p < d.length ∧ ASCII_MAX < d.getD p 0 then SUBSTITUTE else d.getD p 0 := by
  by_cases hp : p < d.length
  · rw [getD_map_lt _ d p hp]
    by_cases hv : ASCII_MAX < d.getD p 0
    · rw [if_pos hv, if_pos ⟨hp, hv⟩]
    · rw [if_neg hv, if_neg (fun hc => hv hc.2)]
  · rw [getD_oob _ p (by simpa using hp), getD_oob d p (by omega),
      if_neg (fun hc => hp hc.1)]

lemma getD_range (n p : Nat) (h : p < n) : (List.range n).getD p 0 = p := by
  simp [List.getD, List.getElem?_range, h]

lemma all_le_of_getD : ∀ (l : List Nat) (n : Nat),
    (∀ p, p < l.length → l.getD p 0 ≤ n) → ∀ b ∈ l, b ≤ n
  | [], _, _, b, hb => by simp at hb
  | a :: t, n, h, b, hb => by
    rcases List.mem_cons.mp hb with rfl | hb
    · exact h 0 (by simp)
    · exact all_le_of_getD t n (fun p hp => h (p + 1) (by simp only [List.length_cons]; omega)) b hb

/-! Claim theorems. -/

/-- C1: Round-trip — for every byte sequence `d`, calling `take_data`
immediately after `from_vec d` returns `Some d`, the exact original
sequence (also when `d` contains literal `0x1A` sentinel bytes, which are
left unrecorded and untouched), leaving the value empty with its table
intact. Stated for all `Nat` sequences, which subsumes all byte
sequences. -/
theorem C1_round_trip (d : List Nat) :
    take_data (from_vec d) = some (some d, DataString.mk none (from_vec d).replacements) := by
  have hs := from_vec_string d
  obtain ⟨d2, hw, hlen, hpt⟩ :=
    writeTable_some_spec (fun k => k) (fun i => d.getD i 0) (from_vec d).replacements
      (d.map (fun b => if ASCII_MAX < b then SUBSTITUTE else b))
      (fun k l hml i hi => by
        have hr := (recorded_from_vec d i k).mp ⟨l, hml, hi⟩
        exact ⟨by simpa using hr.1, hr.2.1.symm⟩)
  have hd2 : d2 = d := by
    apply list_ext_getD
    · rw [hlen]
      simp
    · intro p
      rw [hpt p]
      by_cases hInT : InTab (from_vec d).replacements p
      · rw [if_pos hInT]
      · rw [if_neg hInT, maskedText_getD d p, if_neg]
        intro hc
        exact hInT ((inTab_from_vec d p).mpr hc)
  rw [hd2] at hw
  have hfv : from_vec d
      = DataString.mk (some (d.map (fun b => if ASCII_MAX < b then SUBSTITUTE else b)))
        (from_vec d).replacements := by
    rw [← hs]
  rw [hfv]
  show (match writeTable (fun k => k) (from_vec d).replacements
      (d.map (fun b => if ASCII_MAX < b then SUBSTITUTE else b)) with
    | none => none
    | some d0 => some (some d0, DataString.mk none (from_vec d).replacements))
      = some (some d, DataString.mk none (from_vec d).replacements)
  rw [hw]

/-- C2: Construction postcondition — after `from_vec d` the stored text
form has the length of `d`, agrees with `d` wherever `d` is 7-bit, holds
the sentinel wherever `d` exceeds 7 bits, contains only bytes in
`[0, 127]` and is valid text (valid UTF-8). -/
theorem C2_construction_postcondition (d t : List Nat)
    (h : (from_vec d).string_rep = some t) :
    t.length = d.length ∧
    (∀ i, i < d.length → d.getD i 0 ≤ ASCII_MAX → t.getD i 0 = d.getD i 0) ∧
    (∀ i, i < d.length → ASCII_MAX < d.getD i 0 → t.getD i 0 = SUBSTITUTE) ∧
    (∀ b ∈ t, b ≤ ASCII_MAX) ∧ utf8Valid t = true := by
  have hs := from_vec_string d
  rw [h] at hs
  injection hs with hs
  subst hs
  have hall : ∀ b ∈ d.map (fun b => if ASCII_MAX < b then SUBSTITUTE else b), b ≤ ASCII_MAX := by
    intro b hb
    simp only [List.mem_map] at hb
    obtain ⟨a, _, rfl⟩ := hb
    by_cases hv : ASCII_MAX < a
    · rw [if_pos hv]
      decide
    · rw [if_neg hv]
      omega
  refine ⟨by simp, ?_, ?_, hall, utf8Valid_ascii _ hall⟩
  · intro i hi hlow
    rw [maskedText_getD, if_neg (fun hc => by omega)]
  · intro i hi hhigh
    rw [maskedText_getD, if_pos ⟨hi, hhigh⟩]

/-- C2 witness: the postcondition instantiated at the concrete input
`[97, 200]`, whose stored text form is `[97, 26]`. -/
theorem C2_construction_postcondition_witness :
    ([97, 26] : List Nat).length = ([97, 200] : List Nat).length ∧
    (∀ i, i < ([97, 200] : List Nat).length →
      ([97, 200] : List Nat).getD i 0 ≤ ASCII_MAX →
      ([97, 26] : List Nat).getD i 0 = ([97, 200] : List Nat).getD i 0) ∧
    (∀ i, i < ([97, 200] : List Nat).length →
      ASCII_MAX < ([97, 200] : List Nat).getD i 0 →
      ([97, 26] : List Nat).getD i 0 = SUBSTITUTE) ∧
    (∀ b ∈ ([97, 26] : List Nat), b ≤ ASCII_MAX) ∧ utf8Valid [97, 26] = true :=
  C2_construction_postcondition [97, 200] [97, 26] rfl

/-- C3: Mask table correctness — after `from_vec d`, a position `p` is
recorded under key `k` exactly when `p < d.length`, `d` holds `k` at `p`
and `k` exceeds 7 bits; the keys of the table are distinct; every index
list is strictly ascending; and an index appears in exactly one list (any
two entries containing it coincide). In particular no 7-bit position is
recorded anywhere. -/
theorem C3_mask_table_correct (d : List Nat) :
    (∀ p k, Recorded (from_vec d).replacements p k ↔
      (p < d.length ∧ d.getD p 0 = k ∧ ASCII_MAX < k)) ∧
    ((from_vec d).replacements.map Prod.fst).Nodup ∧
    TableSorted (from_vec d).replacements ∧
    (∀ p k1 l1 k2 l2, (k1, l1) ∈ (from_vec d).replacements →
      (k2, l2) ∈ (from_vec d).replacements → p ∈ l1 → p ∈ l2 → k1 = k2 ∧ l1 = l2) := by
  refine ⟨recorded_from_vec d, keysNodup_from_vec d, tableSorted_from_vec d, ?_⟩
  intro p k1 l1 k2 l2 h1 h2 hp1 hp2
  have r1 := (recorded_from_vec d p k1).mp ⟨l1, h1, hp1⟩
  have r2 := (recorded_from_vec d p k2).mp ⟨l2, h2, hp2⟩
  have hk : k1 = k2 := by omega
  subst hk
  exact ⟨rfl, entry_unique_of_keysNodup _ (keysNodup_from_vec d) k1 l1 l2 h1 h2⟩

/-- C7: Return rejection when full — on a value holding a text form,
`return_string x` yields back `some x` and `return_data_unchecked c`
yields back `some c`, both byte-for-byte unchanged and with the held text
form and table untouched (no re-masking of `c`). -/
theorem C7_return_rejection_when_full (t : List Nat) (m : List (Nat × List Nat))
    (x c : List Nat) :
    return_string (DataString.mk (some t) m) x = (some x, DataString.mk (some t) m) ∧
    return_data_unchecked (DataString.mk (some t) m) c
      = some (some c, DataString.mk (some t) m) :=
  ⟨rfl, rfl⟩

/-- C8: Idempotent emptiness — once `take_string` has returned `some`,
with no intervening return, a further `take_string` returns `none` and
`take_data` also returns `none`, and neither call changes the state. -/
theorem C8_idempotent_emptiness (ds : DataString) (s : List Nat) (ds1 : DataString)
    (h : take_string ds = (some s, ds1)) :
    take_string ds1 = (none, ds1) ∧ take_data ds1 = some (none, ds1) := by
  obtain ⟨sr, m⟩ := ds
  simp only [take_string] at h
  injection h with h1 h2
  subst h2
  exact ⟨rfl, rfl⟩

/-- C8 witness: taking the string out of `from_vec [97]` leaves the state
`⟨none, []⟩`, on which both take operations return nothing and preserve
the state. -/
theorem C8_idempotent_emptiness_witness :
    take_string (DataString.mk none []) = (none, DataString.mk none []) ∧
    take_data (DataString.mk none []) = some (none, DataString.mk none []) :=
  C8_idempotent_emptiness (from_vec [97]) [97] (DataString.mk none []) rfl

/-- C10: Implicit bounds-safety precondition — the replay loop of
`take_data` and the re-masking loop of `return_data_unchecked` index the
buffer without a bounds check, so they are panic-free at the indexing
step exactly when every recorded position lies below the buffer length:
with all positions in bounds `take_data` succeeds and the re-masking
write succeeds, while any recorded position at or beyond the length makes
`take_data` (resp. `return_data_unchecked`) panic, e.g. after a shorter
text was stored via `return_string` or a shorter buffer was supplied. -/
theorem C10_bounds_safety :
    (∀ (t : List Nat) (m : List (Nat × List Nat)), TableBelow m t.length →
      ∃ r, take_data (DataString.mk (some t) m) = some r) ∧
    (∀ (t : List Nat) (m : List (Nat × List Nat)) (k : Nat) (l : List Nat) (i : Nat),
      (k, l) ∈ m → i ∈ l → t.length ≤ i →
      take_data (DataString.mk (some t) m) = none) ∧
    (∀ (c : List Nat) (m : List (Nat × List Nat)), TableBelow m c.length →
      ∃ d, writeTable (fun _ => SUBSTITUTE) m c = some d) ∧
    (∀ (c : List Nat) (m : List (Nat × List Nat)) (k : Nat) (l : List Nat) (i : Nat),
      (k, l) ∈ m → i ∈ l → c.length ≤ i →
      return_data_unchecked (DataString.mk none m) c = none) := by
  refine ⟨?_, ?_, ?_, ?_⟩
  · intro t m hb
    obtain ⟨d, hw, _⟩ := writeTable_some_of_bounds (fun k => k) m t hb
    refine ⟨(some d, DataString.mk none m), ?_⟩
    simp only [take_data]
    rw [hw]
  · intro t m k l i hm hi hoob
    have hw := writeTable_none_of_oob (fun k => k) m t ⟨k, l, hm, i, hi, hoob⟩
    simp only [take_data]
    rw [hw]
  · intro c m hb
    obtain ⟨d, hw, _⟩ := writeTable_some_of_bounds (fun _ => SUBSTITUTE) m c hb
    exact ⟨d, hw⟩
  · intro c m k l i hm hi hoob
    have hw := writeTable_none_of_oob (fun _ => SUBSTITUTE) m c ⟨k, l, hm, i, hi, hoob⟩
    simp only [return_data_unchecked]
    rw [hw]

/-- C10 witness: with table `[(200, [1])]` and a one-byte text (as stored
by `return_string [97]` after emptying `from_vec [97, 200]`), `take_data`
panics; a bounds-respecting state succeeds; an empty buffer makes the
re-masking of `return_data_unchecked` panic. -/
theorem C10_bounds_safety_witness :
    (∃ r, take_data (DataString.mk (some [97, 26]) [(200, [1])]) = some r) ∧
    take_data (DataString.mk (some [97]) [(200, [1])]) = none ∧
    return_data_unchecked (DataString.mk none [(200, [1])]) [] = none :=
  ⟨C10_bounds_safety.1 [97, 26] [(200, [1])] (by decide),
   C10_bounds_safety.2.1 [97] [(200, [1])] 200 [1] 1 (by decide) (by decide) (by decide),
   C10_bounds_safety.2.2.2 [] [(200, [1])] 200 [1] 1 (by decide) (by decide) (by decide)⟩

/-- C6: Unchecked-return re-masking — on the empty state with the table
built by `from_vec d`, returning a buffer `c` of the original length
whose unrecorded positions are 7-bit succeeds (`none`) and stores the
text equal to `c` with the sentinel written at exactly the recorded
positions and the bytes of `c` everywhere else. -/
theorem C6_unchecked_return_remasking (d c : List Nat)
    (hlen : c.length = d.length)
    (hlow : ∀ p, p < c.length → ¬ InTab (from_vec d).replacements p →
      c.getD p 0 ≤ ASCII_MAX) :
    return_data_unchecked (DataString.mk none (from_vec d).replacements) c
      = some (none, DataString.mk
          (some ((List.range c.length).map
            (fun p => if InTab (from_vec d).replacements p then SUBSTITUTE else c.getD p 0)))
          (from_vec d).replacements) := by
  obtain ⟨t, hw, hlen2, hpt⟩ :=
    writeTable_some_spec (fun _ => SUBSTITUTE) (fun _ => SUBSTITUTE)
      (from_vec d).replacements c
      (fun k l hml i hi => by
        have := tableBelow_from_vec d k l hml i hi
        exact ⟨by omega, rfl⟩)
  have ht : t = (List.range c.length).map
      (fun p => if InTab (from_vec d).replacements p then SUBSTITUTE else c.getD p 0) := by
    apply list_ext_getD
    · rw [hlen2]
      simp
    · intro p
      rw [hpt p]
      by_cases hp : p < c.length
      · rw [getD_map_lt _ _ p (by simpa using hp), getD_range _ p hp]
      · have hnin : ¬ InTab (from_vec d).replacements p := by
          intro hin
          obtain ⟨k, hk⟩ := (InTab_iff_recorded _ p).mp hin
          have := ((recorded_from_vec d p k).mp hk).1
          omega
        rw [if_neg hnin, getD_oob c p (by omega),
          getD_oob _ p (by simp only [List.length_map, List.length_range]; omega)]
  have hvalid : utf8Valid t = true := by
    apply utf8Valid_ascii
    apply all_le_of_getD
    intro p hp
    rw [hpt p]
    by_cases hin : InTab (from_vec d).replacements p
    · rw [if_pos hin]
      decide
    · rw [if_neg hin]
      exact hlow p (by omega) hin
  simp only [return_data_unchecked]
  rw [hw]
  dsimp only
  rw [if_pos hvalid, ht]

/-- C6 witness: with the table of `from_vec [97, 200]` (one recorded
position, index 1), returning the buffer `[65, 0]` succeeds and stores
`[65, 26]`. -/
theorem C6_unchecked_return_remasking_witness :
    return_data_unchecked (DataString.mk none [(200, [1])]) [65, 0]
      = some (none, DataString.mk (some [65, 26]) [(200, [1])]) := by
  have h := C6_unchecked_return_remasking [97, 200] [65, 0] rfl (by decide)
  exact h.trans (by decide)

/-- C4 counterexample: the claim as stated is false — from `[0, 0]` the
mask table is empty, and after taking the data out,
`return_data_unchecked [0xC2, 0xA9]` (original length, non-masked
position 0 holding 194 > 127) does NOT fail: the two high bytes form
valid UTF-8, so the buffer is silently accepted and stored as the text
form. -/
theorem C4_counterexample :
    take_data (from_vec [0, 0]) = some (some [0, 0], DataString.mk none []) ∧
    return_data_unchecked (DataString.mk none []) [194, 169]
      = some (none, DataString.mk (some [194, 169]) []) :=
  ⟨rfl, rfl⟩

/-- C4 (amended): on the empty state with an in-bounds table, a buffer in
which some non-masked position holds a byte above 127 while every other
non-masked position is 7-bit makes `return_data_unchecked` fail fatally
(the re-masked buffer is not valid UTF-8, so the `unwrap` panics); only
several high bytes that together form valid UTF-8 can slip through, as
the counterexample shows. -/
theorem C4_fatal_corruption_amended (m : List (Nat × List Nat)) (c : List Nat) (p : Nat)
    (hb : TableBelow m c.length) (hp : p < c.length) (hnin : ¬ InTab m p)
    (hhigh : ASCII_MAX < c.getD p 0)
    (hothers : ∀ q, q < c.length → q ≠ p → ¬ InTab m q → c.getD q 0 ≤ ASCII_MAX) :
    return_data_unchecked (DataString.mk none m) c = none := by
  obtain ⟨t, hw, hlen2, hpt⟩ :=
    writeTable_some_spec (fun _ => SUBSTITUTE) (fun _ => SUBSTITUTE) m c
      (fun k l hml i hi => ⟨hb k l hml i hi, rfl⟩)
  have hinvalid : utf8Valid t = false := by
    apply utf8Valid_false_of_lone_high t p
    · omega
    · intro j hj
      rw [hpt j]
      by_cases hin : InTab m j
      · rw [if_pos hin]
        decide
      · rw [if_neg hin]
        exact hothers j (by omega) (by omega) hin
    · rw [hpt p, if_neg hnin]
      exact hhigh
    · rw [hpt (p + 1)]
      by_cases hin : InTab m (p + 1)
      · rw [if_pos hin]
        decide
      · rw [if_neg hin]
        by_cases hq : p + 1 < c.length
        · exact hothers (p + 1) hq (by omega) hin
        · rw [getD_oob c (p + 1) (by omega)]
          decide
  simp only [return_data_unchecked]
  rw [hw]
  simp [hinvalid]

/-- C4 witness: the repository test `panic_if_data_modified` scenario —
table `[(200, [1])]`, buffer `[200, 200, 103]` with the non-masked
position 0 corrupted to 200 — panics. -/
theorem C4_fatal_corruption_amended_witness :
    return_data_unchecked (DataString.mk none [(200, [1])]) [200, 200, 103] = none :=
  C4_fatal_corruption_amended [(200, [1])] [200, 200, 103] 0 (by decide) (by decide)
    (by decide) (by decide) (by decide)

/-- C5 counterexample: the claim as stated is false — the invariant is
not preserved by `return_string` on an empty value: after `from_vec
[200]` (text `[26]`, table `[(200, [0])]`) and `take_string`, returning
the unrelated text `[97]` is accepted, and in the resulting state the
recorded position 0 holds 97, not the sentinel. -/
theorem C5_counterexample :
    from_vec [200] = DataString.mk (some [26]) [(200, [0])] ∧
    take_string (DataString.mk (some [26]) [(200, [0])])
      = (some [26], DataString.mk none [(200, [0])]) ∧
    return_string (DataString.mk none [(200, [0])]) [97]
      = (none, DataString.mk (some [97]) [(200, [0])]) ∧
    ¬ SentinelInv (DataString.mk (some [97]) [(200, [0])]) := by
  refine ⟨rfl, rfl, rfl, ?_⟩
  intro h
  have h2 := (h [97] rfl 200 [0] (by simp) 0 (by simp)).2
  exact absurd h2 (by decide)

/-- C5 (amended): the sentinel-position invariant — every recorded
position is a valid index of the held text and holds the sentinel — is
established by construction and preserved by `take_string`, by
`return_string` on a full value, and by every successful `take_data` and
`return_data_unchecked`; it is NOT preserved by `return_string` on an
empty value, which stores arbitrary caller text (counterexample). -/
theorem C5_sentinel_invariant_amended :
    (∀ d, SentinelInv (from_vec d)) ∧
    (∀ ds, SentinelInv ds → SentinelInv (take_string ds).2) ∧
    (∀ ds s, ds.string_rep ≠ none → SentinelInv ds →
      SentinelInv (return_string ds s).2) ∧
    (∀ ds r ds2, take_data ds = some (r, ds2) → SentinelInv ds → SentinelInv ds2) ∧
    (∀ ds c r ds2, return_data_unchecked ds c = some (r, ds2) → SentinelInv ds →
      SentinelInv ds2) := by
  refine ⟨?_, ?_, ?_, ?_, ?_⟩
  · intro d t h k l hm i hi
    have hs := from_vec_string d
    rw [h] at hs
    injection hs with hs
    subst hs
    have hr := (recorded_from_vec d i k).mp ⟨l, hm, hi⟩
    constructor
    · simp only [List.length_map]
      exact hr.1
    · rw [maskedText_getD, if_pos ⟨hr.1, by omega⟩]
  · rintro ⟨sr, m⟩ _ t h
    exact Option.noConfusion h
  · rintro ⟨sr, m⟩ s hne hInv
    cases sr with
    | none => exact absurd rfl hne
    | some x => exact hInv
  · rintro ⟨sr, m⟩ r ds2 h hInv
    cases sr with
    | none =>
      simp only [take_data] at h
      injection h with h1
      injection h1 with ha hb
      subst hb
      exact hInv
    | some s =>
      cases hw : writeTable (fun k => k) m s with
      | none =>
        simp only [take_data, hw] at h
        exact Option.noConfusion h
      | some d0 =>
        simp only [take_data, hw] at h
        injection h with h1
        injection h1 with ha hb
        subst hb
        intro t ht
        exact Option.noConfusion ht
  · rintro ⟨sr, m⟩ c r ds2 h hInv
    cases sr with
    | some x =>
      simp only [return_data_unchecked] at h
      injection h with h1
      injection h1 with ha hb
      subst hb
      exact hInv
    | none =>
      cases hw : writeTable (fun _ => SUBSTITUTE) m c with
      | none =>
        simp only [return_data_unchecked, hw] at h
        exact Option.noConfusion h
      | some d0 =>
        simp only [return_data_unchecked, hw] at h
        by_cases hv : utf8Valid d0
        · rw [if_pos hv] at h
          injection h with h1
          injection h1 with ha hb
          subst hb
          intro t ht k l hm i hi
          injection ht with ht
          subst ht
          have hbnd := writeTable_some_bounds (fun _ => SUBSTITUTE) m c d0 hw
          obtain ⟨d1, hw1, hlen1, hpt1⟩ :=
            writeTable_some_spec (fun _ => SUBSTITUTE) (fun _ => SUBSTITUTE) m c
              (fun k2 l2 hm2 i2 hi2 => ⟨hbnd k2 l2 hm2 i2 hi2, rfl⟩)
          rw [hw] at hw1
          injection hw1 with he
          subst he
          constructor
          · have := hbnd k l hm i hi
            omega
          · rw [hpt1 i, if_pos ⟨(k, l), hm, hi⟩]
        · rw [if_neg hv] at h
          exact Option.noConfusion h

/-- C5 witness: a successful `return_data_unchecked` establishes the
invariant; concretely, after returning `[97]` to the empty state with
table `[(200, [0])]`, the recorded position 0 holds the sentinel. -/
theorem C5_sentinel_invariant_amended_witness :
    ([26] : List Nat).getD 0 0 = SUBSTITUTE := by
  have h := C5_sentinel_invariant_amended.2.2.2.2
    (DataString.mk none [(200, [0])]) [97] none (DataString.mk (some [26]) [(200, [0])])
    rfl (fun t ht => Option.noConfusion ht)
  exact (h [26] rfl 200 [0] (by simp) 0 (by simp)).2

/-- C9: Display rendering — for a value holding text `s` with chars `cs`
(the UTF-8 decoding of `s`, total for every genuine Rust `String`), the
rendered output has one char per char of `s`, equal to U+FFFD where the
char is the sentinel and to the original char elsewhere; a value holding
no text renders as the empty string. Rendering is a pure observer of the
state in this embedding, so it cannot mutate the value. -/
theorem C9_display_rendering :
    (∀ (m : List (Nat × List Nat)) (s cs : List Nat), utf8Decode s = some cs →
      (displayRender (DataString.mk (some s) m)).length = cs.length ∧
      ∀ i, i < cs.length →
        ((cs.getD i 0 = SUBSTITUTE →
          (displayRender (DataString.mk (some s) m)).getD i 0 = 0xFFFD) ∧
        (cs.getD i 0 ≠ SUBSTITUTE →
          (displayRender (DataString.mk (some s) m)).getD i 0 = cs.getD i 0))) ∧
    (∀ m, displayRender (DataString.mk none m) = []) := by
  constructor
  · intro m s cs h
    have hd : displayRender (DataString.mk (some s) m)
        = cs.map (fun c => if c = SUBSTITUTE then 0xFFFD else c) := by
      simp only [displayRender]
      rw [h]
    constructor
    · rw [hd]
      simp
    · intro i hi
      constructor
      · intro hc
        rw [hd, getD_map_lt _ cs i hi, hc, if_pos rfl]
      · intro hc
        rw [hd, getD_map_lt _ cs i hi, if_neg hc]
  · intro m
    rfl

/-- C9 witness: rendering the text `[104, 26]` gives two chars, `h`
unchanged and the sentinel replaced by U+FFFD. -/
theorem C9_display_rendering_witness :
    (displayRender (DataString.mk (some [104, 26]) [])).length = 2 ∧
    (displayRender (DataString.mk (some [104, 26]) [])).getD 0 0 = 104 ∧
    (displayRender (DataString.mk (some [104, 26]) [])).getD 1 0 = 0xFFFD := by
  have h := C9_display_rendering.1 [] [104, 26] [104, 26] rfl
  refine ⟨h.1, ?_, (h.2 1 (by decide)).1 (by decide)⟩
  exact (h.2 0 (by decide)).2 (by decide)

end DataStr
